import Mathlib

/-!
Verification of the Bloom filter implementation in `src/bloom.c`.

The C byte array `char *a` is modelled as a total function `Nat → Nat` from byte
index to byte value (only indices below `ROUND(m)` are ever touched when `m ≥ 1`,
so the unbounded model is conservative).  The `SETBIT`/`GETBIT` macros, the
constructor `bloom_new`, and the operations `bloom_add` / `bloom_check` are
translated directly from the source.
-/

/-- Value of `CHAR_BIT` from `<limits.h>` on the target platform: 8 bits per byte. -/
def CHAR_BIT : Nat := 8

/-- Modelled from the spec: the hash function type `hashfp_t` is declared in
`bloom.h`, which is not part of `src/`.  Per spec §6 a hash function maps a key
(a string) to an unsigned integer of implementation-defined width; we model the
value as an arbitrary `Nat`, and the `(unsigned int)` cast performed in
`bloom_add` / `bloom_check` (src/bloom.c lines 206 and 257) truncates it modulo
`UINT_MAX_SUCC`. -/
abbrev hashfp_t := String → Nat

/-- One past the maximum value of a 32-bit `unsigned int`: `2 ^ 32`. -/
def UINT_MAX_SUCC : Nat := 2 ^ 32

/-- The struct `bloom_t`: byte array `a`, hash-function table `hash`, number of
hash functions `k`, bit-array size `m` (src/bloom.c, fields used throughout). -/
structure bloom_t where
  a : Nat → Nat
  hash : Nat → hashfp_t
  k : Nat
  m : Nat

/-- `#define SETBIT(a,n) (a[n/CHAR_BIT] |= (1<<(n%CHAR_BIT)))` (src/bloom.c line 116). -/
def SETBIT (a : Nat → Nat) (n : Nat) : Nat → Nat :=
  Function.update a (n / CHAR_BIT) (a (n / CHAR_BIT) ||| (1 <<< (n % CHAR_BIT)))

/-- `#define GETBIT(a,n) (a[n/CHAR_BIT] & (1<<(n%CHAR_BIT)))` (src/bloom.c line 117). -/
def GETBIT (a : Nat → Nat) (n : Nat) : Nat :=
  a (n / CHAR_BIT) &&& (1 <<< (n % CHAR_BIT))

/-- `bloom_new` (src/bloom.c lines 132-171), on its success path: the byte array
is `calloc`ed to all zeros, the variadic hash-function arguments are modelled as
an explicit ordered list (spec §9), `k` is set to the number of hash functions
and `m` to `size`.  Allocation failure is not modelled. -/
def bloom_new (size : Nat) (hashes : List hashfp_t) : bloom_t :=
  { a := fun _ => 0
    hash := fun n => hashes.getD n (fun _ => 0)
    k := hashes.length
    m := size }

/-- The bit index computed identically in `bloom_add` and `bloom_check`:
`hash = (unsigned int)bloom->hash[n](s); ... hash % bloom->m`
(src/bloom.c lines 206-207 and 257-258). -/
def bloomBitIndex (bloom : bloom_t) (s : String) (n : Nat) : Nat :=
  (bloom.hash n s % UINT_MAX_SUCC) % bloom.m

/-- `bloom_add` (src/bloom.c lines 200-209): for `n = 0 .. k-1`,
`SETBIT(bloom->a, hash % bloom->m)`. -/
def bloom_add (bloom : bloom_t) (s : String) : bloom_t :=
  { bloom with
    a := (List.range bloom.k).foldl (fun a n => SETBIT a (bloomBitIndex bloom s n)) bloom.a }

/-- Loop body of `bloom_check` (src/bloom.c lines 256-261), with `fuel` the
number of remaining iterations (`bloom->k - n`): if `!(GETBIT(...))` return
`false`, else continue; after the loop return `true`. -/
def bloom_check_go (bloom : bloom_t) (s : String) : Nat → Nat → Bool
  | _, 0 => true
  | n, fuel + 1 =>
    if GETBIT bloom.a (bloomBitIndex bloom s n) = 0 then false
    else bloom_check_go bloom s (n + 1) fuel

/-- `bloom_check` (src/bloom.c lines 251-262). -/
def bloom_check (bloom : bloom_t) (s : String) : Bool :=
  bloom_check_go bloom s 0 bloom.k

/-- An operation performed on a live filter: `bloom_add` or `bloom_check`. -/
inductive BloomOp where
  | add (s : String)
  | check (s : String)

/-- State effect of one operation: `bloom_add` mutates the byte array;
`bloom_check` (src/bloom.c lines 251-262) performs no write, so it leaves the
filter unchanged. -/
def runOp (bloom : bloom_t) : BloomOp → bloom_t
  | BloomOp.add s => bloom_add bloom s
  | BloomOp.check _ => bloom

/-- `n` successive calls of `bloom_add` with the same string. -/
def bloom_add_iter (bloom : bloom_t) (s : String) : Nat → bloom_t
  | 0 => bloom
  | n + 1 => bloom_add (bloom_add_iter bloom s n) s

/-- A concrete filter used to instantiate theorems: `m = 8`, `k = 1`, all bits
clear, a single constant hash function. -/
def wFilter : bloom_t := { a := fun _ => 0, hash := fun _ _ => 0, k := 1, m := 8 }

/-- A concrete filter with every byte set to `0xFF` (all bits true). -/
def wFilterFull : bloom_t := { a := fun _ => 255, hash := fun _ _ => 0, k := 1, m := 8 }

/-- A concrete filter whose bit array is larger than `2 ^ 32` bits. -/
def wFilterBig : bloom_t := { a := fun _ => 0, hash := fun _ _ => 0, k := 1, m := 2 ^ 32 + 8 }

/-! ### Basic facts about the `SETBIT` / `GETBIT` macros -/

theorem getbit_ne_zero_iff (a : Nat → Nat) (n : Nat) :
    GETBIT a n ≠ 0 ↔ (a (n / CHAR_BIT)).testBit (n % CHAR_BIT) = true := by
  unfold GETBIT
  rw [Nat.one_shiftLeft, Nat.and_two_pow]
  cases h : (a (n / CHAR_BIT)).testBit (n % CHAR_BIT) <;> simp [h]

theorem getbit_setbit_self (a : Nat → Nat) (i : Nat) : GETBIT (SETBIT a i) i ≠ 0 := by
  rw [getbit_ne_zero_iff]
  unfold SETBIT
  rw [Function.update_same, Nat.one_shiftLeft]
  simp [Nat.testBit_or, Nat.testBit_two_pow_self]

theorem getbit_setbit_of_ne (a : Nat → Nat) {i j : Nat} (h : j ≠ i) :
    GETBIT (SETBIT a i) j = GETBIT a j := by
  unfold GETBIT SETBIT
  rcases eq_or_ne (j / CHAR_BIT) (i / CHAR_BIT) with hq | hq
  · have hr : j % CHAR_BIT ≠ i % CHAR_BIT := by
      intro hr
      apply h
      have hq8 : j / 8 = i / 8 := hq
      have hr8 : j % 8 = i % 8 := hr
      omega
    rw [hq, Function.update_same]
    apply Nat.eq_of_testBit_eq
    intro b
    rw [Nat.one_shiftLeft, Nat.one_shiftLeft, Nat.testBit_and, Nat.testBit_and,
      Nat.testBit_or]
    rcases eq_or_ne b (j % CHAR_BIT) with hb | hb
    · subst hb
      simp [Nat.testBit_two_pow_of_ne (fun hc => hr hc.symm)]
    · simp [Nat.testBit_two_pow_of_ne (fun hc => hb hc.symm)]
  · rw [Function.update_noteq hq]

theorem setbit_eq_self (a : Nat → Nat) {i : Nat} (h : GETBIT a i ≠ 0) :
    SETBIT a i = a := by
  unfold SETBIT
  rw [getbit_ne_zero_iff] at h
  have : a (i / CHAR_BIT) ||| 1 <<< (i % CHAR_BIT) = a (i / CHAR_BIT) := by
    apply Nat.eq_of_testBit_eq
    intro b
    rw [Nat.one_shiftLeft, Nat.testBit_or]
    rcases eq_or_ne (i % CHAR_BIT) b with hb | hb
    · subst hb
      simp [h]
    · simp [Nat.testBit_two_pow_of_ne hb]
  rw [this, Function.update_eq_self]

/-! ### The effect of the `bloom_add` loop on the byte array -/

theorem getbit_foldl_setbit (f : Nat → Nat) (l : List Nat) (a : Nat → Nat) (j : Nat) :
    GETBIT (l.foldl (fun acc n => SETBIT acc (f n)) a) j ≠ 0 ↔
      (∃ n ∈ l, f n = j) ∨ GETBIT a j ≠ 0 := by
  induction l generalizing a with
  | nil => simp
  | cons hd tl ih =>
    rw [List.foldl_cons, ih]
    constructor
    · rintro (⟨n, hn, hfn⟩ | hset)
      · exact Or.inl ⟨n, List.mem_cons_of_mem hd hn, hfn⟩
      · rcases eq_or_ne j (f hd) with hj | hj
        · exact Or.inl ⟨hd, List.mem_cons_self hd tl, hj.symm⟩
        · rw [getbit_setbit_of_ne a hj] at hset
          exact Or.inr hset
    · rintro (⟨n, hn, hfn⟩ | hold)
      · rcases List.mem_cons.mp hn with hhd | htl
        · subst hhd
          subst hfn
          exact Or.inr (getbit_setbit_self a (f n))
        · exact Or.inl ⟨n, htl, hfn⟩
      · right
        rcases eq_or_ne j (f hd) with hj | hj
        · subst hj
          exact getbit_setbit_self a (f hd)
        · rwa [getbit_setbit_of_ne a hj]

theorem getbit_foldl_setbit_frame (f : Nat → Nat) (l : List Nat) (a : Nat → Nat)
    (j : Nat) (h : ∀ n ∈ l, f n ≠ j) :
    GETBIT (l.foldl (fun acc n => SETBIT acc (f n)) a) j = GETBIT a j := by
  induction l generalizing a with
  | nil => rfl
  | cons hd tl ih =>
    rw [List.foldl_cons, ih _ fun n hn => h n (List.mem_cons_of_mem hd hn),
      getbit_setbit_of_ne a fun hj => h hd (List.mem_cons_self hd tl) hj.symm]

theorem foldl_setbit_eq_self (f : Nat → Nat) (l : List Nat) (a : Nat → Nat)
    (h : ∀ n ∈ l, GETBIT a (f n) ≠ 0) :
    l.foldl (fun acc n => SETBIT acc (f n)) a = a := by
  induction l with
  | nil => rfl
  | cons hd tl ih =>
    rw [List.foldl_cons, setbit_eq_self a (h hd (List.mem_cons_self hd tl))]
    exact ih fun n hn => h n (List.mem_cons_of_mem hd hn)

theorem bloom_add_a (bloom : bloom_t) (s : String) (j : Nat) :
    GETBIT (bloom_add bloom s).a j ≠ 0 ↔
      (∃ n < bloom.k, bloomBitIndex bloom s n = j) ∨ GETBIT bloom.a j ≠ 0 := by
  unfold bloom_add
  rw [getbit_foldl_setbit]
  simp [List.mem_range]

theorem bloom_add_frame_a (bloom : bloom_t) (s : String) (j : Nat)
    (h : ∀ n < bloom.k, bloomBitIndex bloom s n ≠ j) :
    GETBIT (bloom_add bloom s).a j = GETBIT bloom.a j := by
  unfold bloom_add
  exact getbit_foldl_setbit_frame _ _ _ _ fun n hn => h n (List.mem_range.mp hn)

theorem bloom_add_sets (bloom : bloom_t) (s : String) {n : Nat} (hn : n < bloom.k) :
    GETBIT (bloom_add bloom s).a (bloomBitIndex bloom s n) ≠ 0 :=
  (bloom_add_a bloom s _).mpr (Or.inl ⟨n, hn, rfl⟩)

theorem bloom_add_mono (bloom : bloom_t) (s : String) {j : Nat}
    (h : GETBIT bloom.a j ≠ 0) : GETBIT (bloom_add bloom s).a j ≠ 0 :=
  (bloom_add_a bloom s j).mpr (Or.inr h)

theorem bloom_add_hash (bloom : bloom_t) (s : String) :
    (bloom_add bloom s).hash = bloom.hash := rfl

theorem bloom_add_k (bloom : bloom_t) (s : String) : (bloom_add bloom s).k = bloom.k := rfl

theorem bloom_add_m (bloom : bloom_t) (s : String) : (bloom_add bloom s).m = bloom.m := rfl

theorem bloomBitIndex_bloom_add (bloom : bloom_t) (s t : String) (n : Nat) :
    bloomBitIndex (bloom_add bloom s) t n = bloomBitIndex bloom t n := rfl

theorem foldl_bloom_add_hash (l : List String) (bloom : bloom_t) :
    (l.foldl bloom_add bloom).hash = bloom.hash := by
  induction l generalizing bloom with
  | nil => rfl
  | cons hd tl ih => rw [List.foldl_cons, ih]; rfl

theorem foldl_bloom_add_k (l : List String) (bloom : bloom_t) :
    (l.foldl bloom_add bloom).k = bloom.k := by
  induction l generalizing bloom with
  | nil => rfl
  | cons hd tl ih => rw [List.foldl_cons, ih]; rfl

theorem foldl_bloom_add_m (l : List String) (bloom : bloom_t) :
    (l.foldl bloom_add bloom).m = bloom.m := by
  induction l generalizing bloom with
  | nil => rfl
  | cons hd tl ih => rw [List.foldl_cons, ih]; rfl

theorem foldl_bloom_add_mono (l : List String) (bloom : bloom_t) {j : Nat}
    (h : GETBIT bloom.a j ≠ 0) : GETBIT (l.foldl bloom_add bloom).a j ≠ 0 := by
  induction l generalizing bloom with
  | nil => exact h
  | cons hd tl ih => exact ih (bloom_add bloom hd) (bloom_add_mono bloom hd h)

/-! ### Characterisation of the `bloom_check` loop -/

theorem bloom_check_go_eq_true_iff (bloom : bloom_t) (s : String) (fuel : Nat) :
    ∀ n, bloom_check_go bloom s n fuel = true ↔
      ∀ i < fuel, GETBIT bloom.a (bloomBitIndex bloom s (n + i)) ≠ 0 := by
  induction fuel with
  | zero => intro n; simp [bloom_check_go]
  | succ fuel ih =>
    intro n
    rw [bloom_check_go]
    rcases eq_or_ne (GETBIT bloom.a (bloomBitIndex bloom s n)) 0 with h0 | h0
    · rw [if_pos h0]
      constructor
      · intro hft
        exact (Bool.false_ne_true hft).elim
      · intro hall
        exact (hall 0 (Nat.succ_pos fuel) h0).elim
    · rw [if_neg h0, ih (n + 1)]
      constructor
      · intro hall i hi
        rcases Nat.eq_zero_or_pos i with hz | hp
        · subst hz; exact h0
        · have : i - 1 < fuel := by omega
          have := hall (i - 1) this
          rwa [show n + 1 + (i - 1) = n + i by omega] at this
      · intro hall i hi
        have := hall (i + 1) (by omega)
        rwa [show n + (i + 1) = n + 1 + i by omega] at this

theorem bloom_check_eq_true_iff (bloom : bloom_t) (s : String) :
    bloom_check bloom s = true ↔
      ∀ n < bloom.k, GETBIT bloom.a (bloomBitIndex bloom s n) ≠ 0 := by
  unfold bloom_check
  rw [bloom_check_go_eq_true_iff]
  constructor
  · intro h n hn
    have := h n hn
    rwa [Nat.zero_add] at this
  · intro h i hi
    rw [Nat.zero_add]
    exact h i hi

theorem bloom_check_eq_false_iff (bloom : bloom_t) (s : String) :
    bloom_check bloom s = false ↔
      ∃ n < bloom.k, GETBIT bloom.a (bloomBitIndex bloom s n) = 0 := by
  rw [← Bool.not_eq_true, bloom_check_eq_true_iff]
  push_neg
  constructor
  · rintro ⟨n, hn, h⟩; exact ⟨n, hn, h⟩
  · rintro ⟨n, hn, h⟩; exact ⟨n, hn, h⟩

/-! ### Congruence: the operations depend only on the observable state -/

theorem bloom_check_congr (b1 b2 : bloom_t) (s : String) (hk : b1.k = b2.k)
    (ha : ∀ n < b1.k,
      (GETBIT b1.a (bloomBitIndex b1 s n) = 0 ↔ GETBIT b2.a (bloomBitIndex b2 s n) = 0)) :
    bloom_check b1 s = bloom_check b2 s := by
  cases h1 : bloom_check b1 s
  · rcases (bloom_check_eq_false_iff b1 s).mp h1 with ⟨n, hn, h0⟩
    symm
    exact (bloom_check_eq_false_iff b2 s).mpr ⟨n, hk ▸ hn, (ha n hn).mp h0⟩
  · rcases bloom_check_eq_true_iff b1 s |>.mp h1 with hall
    symm
    apply (bloom_check_eq_true_iff b2 s).mpr
    intro n hn
    have hn1 : n < b1.k := hk ▸ hn
    intro h0
    exact hall n hn1 ((ha n hn1).mpr h0)

theorem foldl_setbit_congr (f g : Nat → Nat) (l : List Nat) (a : Nat → Nat)
    (h : ∀ n ∈ l, f n = g n) :
    l.foldl (fun acc n => SETBIT acc (f n)) a = l.foldl (fun acc n => SETBIT acc (g n)) a := by
  induction l generalizing a with
  | nil => rfl
  | cons hd tl ih =>
    rw [List.foldl_cons, List.foldl_cons, h hd (List.mem_cons_self hd tl)]
    exact ih _ fun n hn => h n (List.mem_cons_of_mem hd hn)

theorem bloom_add_congr_a (b1 b2 : bloom_t) (x : String) (hk : b1.k = b2.k)
    (hm : b1.m = b2.m) (hh : ∀ n < b1.k, b1.hash n x = b2.hash n x) (ha : b1.a = b2.a) :
    (bloom_add b1 x).a = (bloom_add b2 x).a := by
  show (List.range b1.k).foldl (fun a n => SETBIT a (bloomBitIndex b1 x n)) b1.a
      = (List.range b2.k).foldl (fun a n => SETBIT a (bloomBitIndex b2 x n)) b2.a
  rw [← hk, ← ha]
  apply foldl_setbit_congr
  intro n hn
  unfold bloomBitIndex
  rw [hh n (List.mem_range.mp hn), hm]

theorem foldl_bloom_add_congr_a (adds : List String) (b1 b2 : bloom_t)
    (hk : b1.k = b2.k) (hm : b1.m = b2.m)
    (hh : ∀ n s, n < b1.k → b1.hash n s = b2.hash n s) (ha : b1.a = b2.a) :
    (adds.foldl bloom_add b1).a = (adds.foldl bloom_add b2).a := by
  induction adds generalizing b1 b2 with
  | nil => exact ha
  | cons hd tl ih =>
    rw [List.foldl_cons, List.foldl_cons]
    exact ih (bloom_add b1 hd) (bloom_add b2 hd) hk hm hh
      (bloom_add_congr_a b1 b2 hd hk hm (fun n hn => hh n hd hn) ha)

/-! ### Idempotence of `bloom_add` -/

theorem bloom_add_add (b : bloom_t) (x : String) :
    bloom_add (bloom_add b x) x = bloom_add b x := by
  have h : (List.range (bloom_add b x).k).foldl
      (fun a n => SETBIT a (bloomBitIndex (bloom_add b x) x n)) (bloom_add b x).a
      = (bloom_add b x).a :=
    foldl_setbit_eq_self _ _ _ fun n hn => bloom_add_sets b x (List.mem_range.mp hn)
  calc bloom_add (bloom_add b x) x
      = { bloom_add b x with
          a := (List.range (bloom_add b x).k).foldl
            (fun a n => SETBIT a (bloomBitIndex (bloom_add b x) x n)) (bloom_add b x).a } := rfl
    _ = { bloom_add b x with a := (bloom_add b x).a } := by rw [h]
    _ = bloom_add b x := rfl

/-! ### Effect of a single operation (`runOp`) -/

theorem runOp_hash (bloom : bloom_t) (op : BloomOp) : (runOp bloom op).hash = bloom.hash := by
  cases op <;> rfl

theorem runOp_k (bloom : bloom_t) (op : BloomOp) : (runOp bloom op).k = bloom.k := by
  cases op <;> rfl

theorem runOp_m (bloom : bloom_t) (op : BloomOp) : (runOp bloom op).m = bloom.m := by
  cases op <;> rfl

theorem runOp_mono (bloom : bloom_t) (op : BloomOp) {j : Nat}
    (h : GETBIT bloom.a j ≠ 0) : GETBIT (runOp bloom op).a j ≠ 0 := by
  cases op with
  | add s => exact bloom_add_mono bloom s h
  | check s => exact h

theorem foldl_runOp_hash (ops : List BloomOp) (bloom : bloom_t) :
    (ops.foldl runOp bloom).hash = bloom.hash := by
  induction ops generalizing bloom with
  | nil => rfl
  | cons hd tl ih => rw [List.foldl_cons, ih, runOp_hash]

theorem foldl_runOp_k (ops : List BloomOp) (bloom : bloom_t) :
    (ops.foldl runOp bloom).k = bloom.k := by
  induction ops generalizing bloom with
  | nil => rfl
  | cons hd tl ih => rw [List.foldl_cons, ih, runOp_k]

theorem foldl_runOp_m (ops : List BloomOp) (bloom : bloom_t) :
    (ops.foldl runOp bloom).m = bloom.m := by
  induction ops generalizing bloom with
  | nil => rfl
  | cons hd tl ih => rw [List.foldl_cons, ih, runOp_m]

theorem foldl_runOp_mono (ops : List BloomOp) (bloom : bloom_t) {j : Nat}
    (h : GETBIT bloom.a j ≠ 0) : GETBIT (ops.foldl runOp bloom).a j ≠ 0 := by
  induction ops generalizing bloom with
  | nil => exact h
  | cons hd tl ih => exact ih (runOp bloom hd) (runOp_mono bloom hd h)

theorem bloomBitIndex_foldl_bloom_add (l : List String) (bloom : bloom_t) (s : String)
    (n : Nat) : bloomBitIndex (l.foldl bloom_add bloom) s n = bloomBitIndex bloom s n := by
  unfold bloomBitIndex
  rw [foldl_bloom_add_hash, foldl_bloom_add_m]

theorem bloomBitIndex_foldl_runOp (ops : List BloomOp) (bloom : bloom_t) (s : String)
    (n : Nat) : bloomBitIndex (ops.foldl runOp bloom) s n = bloomBitIndex bloom s n := by
  unfold bloomBitIndex
  rw [foldl_runOp_hash, foldl_runOp_m]

/-! ### Claim C1 -/

/-- C1: No false negatives.  For every filter with `m ≥ 1` and `k ≥ 1` (hash
functions are pure, hence deterministic) and every key `x`, after
`bloom_add(filter, x)` a call `bloom_check(filter, x)` returns true, and it
still returns true after any further sequence of `bloom_add` calls on any keys. -/
theorem claim_C1_no_false_negatives (b : bloom_t) (x : String) (rest : List String)
    (hm : 1 ≤ b.m) (hk : 1 ≤ b.k) :
    bloom_check (bloom_add b x) x = true ∧
      bloom_check (rest.foldl bloom_add (bloom_add b x)) x = true := by
  constructor
  · apply (bloom_check_eq_true_iff _ x).mpr
    intro n hn
    exact bloom_add_sets b x hn
  · apply (bloom_check_eq_true_iff _ x).mpr
    intro n hn
    rw [foldl_bloom_add_k] at hn
    rw [bloomBitIndex_foldl_bloom_add]
    exact foldl_bloom_add_mono rest (bloom_add b x) (bloom_add_sets b x hn)

/-- Witness for C1 at a concrete filter, key and subsequent add sequence. -/
theorem claim_C1_witness :
    (1 ≤ wFilter.m ∧ 1 ≤ wFilter.k) ∧
      (bloom_check (bloom_add wFilter "a") "a" = true ∧
        bloom_check (["b"].foldl bloom_add (bloom_add wFilter "a")) "a" = true) :=
  ⟨⟨by decide, by decide⟩,
    claim_C1_no_false_negatives wFilter "a" ["b"] (by decide) (by decide)⟩

/-! ### Claim C2 -/

/-- C2: `bloom_check` computes, for each hash function `n < k` in stored order,
the bit index `hash[n](key) mod m` (hash values are unsigned ints, so the
`(unsigned int)` cast leaves them unchanged); it returns false exactly when one
of those bits is clear, true exactly when all `k` bits are set, and the false
answer is reached without examining the hash functions after the failing one
(short-circuit). -/
theorem claim_C2_check_semantics (b : bloom_t) (s : String)
    (hb : ∀ n, n < b.k → b.hash n s < UINT_MAX_SUCC) :
    (bloom_check b s = true ↔ ∀ n < b.k, GETBIT b.a (b.hash n s % b.m) ≠ 0) ∧
    (bloom_check b s = false ↔ ∃ n < b.k, GETBIT b.a (b.hash n s % b.m) = 0) ∧
    (∀ j < b.k, GETBIT b.a (b.hash j s % b.m) = 0 →
      ∀ g : Nat → hashfp_t, (∀ i ≤ j, g i s = b.hash i s) →
        bloom_check { b with hash := g } s = false) := by
  have hidx : ∀ n, n < b.k → bloomBitIndex b s n = b.hash n s % b.m := by
    intro n hn
    unfold bloomBitIndex
    rw [Nat.mod_eq_of_lt (hb n hn)]
  refine ⟨?_, ?_, ?_⟩
  · rw [bloom_check_eq_true_iff]
    constructor
    · intro h n hn
      rw [← hidx n hn]
      exact h n hn
    · intro h n hn
      rw [hidx n hn]
      exact h n hn
  · rw [bloom_check_eq_false_iff]
    constructor
    · rintro ⟨n, hn, h⟩
      exact ⟨n, hn, by rw [← hidx n hn]; exact h⟩
    · rintro ⟨n, hn, h⟩
      exact ⟨n, hn, by rw [hidx n hn]; exact h⟩
  · intro j hj h0 g hg
    apply (bloom_check_eq_false_iff _ s).mpr
    refine ⟨j, hj, ?_⟩
    show GETBIT b.a (bloomBitIndex { b with hash := g } s j) = 0
    have hgj : bloomBitIndex { b with hash := g } s j = b.hash j s % b.m := by
      show (g j s % UINT_MAX_SUCC) % b.m = b.hash j s % b.m
      rw [hg j (Nat.le_refl j), Nat.mod_eq_of_lt (hb j hj)]
    rw [hgj]
    exact h0

/-- Witness for C2 at a concrete filter and key. -/
theorem claim_C2_witness :
    (∀ n, n < wFilter.k → wFilter.hash n "a" < UINT_MAX_SUCC) ∧
    ((bloom_check wFilter "a" = true ↔
        ∀ n < wFilter.k, GETBIT wFilter.a (wFilter.hash n "a" % wFilter.m) ≠ 0) ∧
      (bloom_check wFilter "a" = false ↔
        ∃ n < wFilter.k, GETBIT wFilter.a (wFilter.hash n "a" % wFilter.m) = 0) ∧
      (∀ j < wFilter.k, GETBIT wFilter.a (wFilter.hash j "a" % wFilter.m) = 0 →
        ∀ g : Nat → hashfp_t, (∀ i ≤ j, g i "a" = wFilter.hash i "a") →
          bloom_check { wFilter with hash := g } "a" = false)) :=
  ⟨by decide, claim_C2_check_semantics wFilter "a" (by decide)⟩

/-! ### Claim C3 -/

/-- C3: `bloom_add(filter, key)` sets exactly the bits at the indices
`hash[n](key) mod m` for `n < k` (hash values being unsigned ints), leaves every
other bit of the array unchanged, and leaves `m`, `k` and the hash-function
table unchanged. -/
theorem claim_C3_add_frame (b : bloom_t) (x : String)
    (hb : ∀ n, n < b.k → b.hash n x < UINT_MAX_SUCC) :
    (bloom_add b x).m = b.m ∧ (bloom_add b x).k = b.k ∧
    (bloom_add b x).hash = b.hash ∧
    (∀ n < b.k, GETBIT (bloom_add b x).a (b.hash n x % b.m) ≠ 0) ∧
    (∀ j, (∀ n < b.k, b.hash n x % b.m ≠ j) →
      GETBIT (bloom_add b x).a j = GETBIT b.a j) := by
  have hidx : ∀ n, n < b.k → bloomBitIndex b x n = b.hash n x % b.m := by
    intro n hn
    unfold bloomBitIndex
    rw [Nat.mod_eq_of_lt (hb n hn)]
  refine ⟨rfl, rfl, rfl, ?_, ?_⟩
  · intro n hn
    rw [← hidx n hn]
    exact bloom_add_sets b x hn
  · intro j hj
    apply bloom_add_frame_a
    intro n hn
    rw [hidx n hn]
    exact hj n hn

/-- Witness for C3 at a concrete filter and key. -/
theorem claim_C3_witness :
    (∀ n, n < wFilter.k → wFilter.hash n "a" < UINT_MAX_SUCC) ∧
    ((bloom_add wFilter "a").m = wFilter.m ∧ (bloom_add wFilter "a").k = wFilter.k ∧
      (bloom_add wFilter "a").hash = wFilter.hash ∧
      (∀ n < wFilter.k,
        GETBIT (bloom_add wFilter "a").a (wFilter.hash n "a" % wFilter.m) ≠ 0) ∧
      (∀ j, (∀ n < wFilter.k, wFilter.hash n "a" % wFilter.m ≠ j) →
        GETBIT (bloom_add wFilter "a").a j = GETBIT wFilter.a j)) :=
  ⟨by decide, claim_C3_add_frame wFilter "a" (by decide)⟩

/-! ### Claim C4 -/

/-- C4: Monotonicity.  The set of true bits is non-decreasing across every
operation (`bloom_add` only sets bits, `bloom_check` mutates nothing), so once
`bloom_check(filter, x)` returns true it returns true after any further sequence
of add and check calls on that filter. -/
theorem claim_C4_monotonic (b : bloom_t) (x : String) (ops : List BloomOp)
    (h : bloom_check b x = true) :
    (∀ (b2 : bloom_t) (op : BloomOp) (j : Nat),
      GETBIT b2.a j ≠ 0 → GETBIT (runOp b2 op).a j ≠ 0) ∧
    bloom_check (ops.foldl runOp b) x = true := by
  constructor
  · intro b2 op j hj
    exact runOp_mono b2 op hj
  · apply (bloom_check_eq_true_iff _ x).mpr
    intro n hn
    rw [foldl_runOp_k] at hn
    rw [bloomBitIndex_foldl_runOp]
    exact foldl_runOp_mono ops b ((bloom_check_eq_true_iff b x).mp h n hn)

/-- Witness for C4 at a concrete filter whose bits are all set. -/
theorem claim_C4_witness :
    bloom_check wFilterFull "a" = true ∧
    ((∀ (b2 : bloom_t) (op : BloomOp) (j : Nat),
        GETBIT b2.a j ≠ 0 → GETBIT (runOp b2 op).a j ≠ 0) ∧
      bloom_check
        (([BloomOp.add "b", BloomOp.check "c"]).foldl runOp wFilterFull) "a" = true) :=
  ⟨by decide,
    claim_C4_monotonic wFilterFull "a" [BloomOp.add "b", BloomOp.check "c"] (by decide)⟩

/-! ### Claim C5 -/

/-- C5: Idempotence of add.  For every filter, key `x` and count `n ≥ 1`,
calling `bloom_add(filter, x)` `n` times in succession yields exactly the same
filter state (in particular the same bit array) as calling it once. -/
theorem claim_C5_add_idempotent (b : bloom_t) (x : String) (n : Nat) (h : 1 ≤ n) :
    bloom_add_iter b x n = bloom_add b x := by
  induction n with
  | zero => exact absurd h (by decide)
  | succ n ih =>
    rcases Nat.eq_zero_or_pos n with hz | hp
    · subst hz
      rfl
    · show bloom_add (bloom_add_iter b x n) x = bloom_add b x
      rw [ih hp, bloom_add_add]

/-- Witness for C5: three successive adds at a concrete filter equal one add. -/
theorem claim_C5_witness :
    1 ≤ 3 ∧ bloom_add_iter wFilter "a" 3 = bloom_add wFilter "a" :=
  ⟨by decide, claim_C5_add_idempotent wFilter "a" 3 (by decide)⟩

/-! ### Claim C6 -/

/-- C6: Empty filter.  A filter freshly constructed by `bloom_new` with
`m ≥ 1` and `k ≥ 1` has every bit of its array clear, and `bloom_check`
returns false for every key before the first `bloom_add` call. -/
theorem claim_C6_empty_filter (size : Nat) (hashes : List hashfp_t)
    (hm : 1 ≤ size) (hk : 1 ≤ hashes.length) :
    (∀ j, GETBIT (bloom_new size hashes).a j = 0) ∧
    (∀ s, bloom_check (bloom_new size hashes) s = false) := by
  have hz : ∀ j, GETBIT (bloom_new size hashes).a j = 0 := by
    intro j
    show GETBIT (fun _ => 0) j = 0
    unfold GETBIT
    exact Nat.zero_and _
  refine ⟨hz, ?_⟩
  intro s
  apply (bloom_check_eq_false_iff _ s).mpr
  exact ⟨0, hk, hz _⟩

/-- Witness for C6 at concrete construction parameters. -/
theorem claim_C6_witness :
    (1 ≤ 8 ∧ 1 ≤ ([fun _ => 0] : List hashfp_t).length) ∧
    ((∀ j, GETBIT (bloom_new 8 ([fun _ => 0] : List hashfp_t)).a j = 0) ∧
      (∀ s, bloom_check (bloom_new 8 ([fun _ => 0] : List hashfp_t)) s = false)) :=
  ⟨⟨by decide, by decide⟩,
    claim_C6_empty_filter 8 [fun _ => 0] (by decide) (by decide)⟩

/-! ### Claim C7 -/

/-- C7: Determinism (two-run).  Two filters constructed with the same `m` and
ordered hash-function sequences that agree pointwise, then fed an identical
sequence of `bloom_add` calls, have identical byte arrays and return identical
answers from `bloom_check` for every key.  (Hash functions are pure Lean
functions, hence deterministic.) -/
theorem claim_C7_determinism (size : Nat) (hs1 hs2 : List hashfp_t)
    (adds : List String) (hlen : hs1.length = hs2.length)
    (hfun : ∀ n s, n < hs1.length →
      hs1.getD n (fun _ => 0) s = hs2.getD n (fun _ => 0) s) :
    ((adds.foldl bloom_add (bloom_new size hs1)).a
        = (adds.foldl bloom_add (bloom_new size hs2)).a) ∧
    (∀ s, bloom_check (adds.foldl bloom_add (bloom_new size hs1)) s
        = bloom_check (adds.foldl bloom_add (bloom_new size hs2)) s) := by
  have hk : (bloom_new size hs1).k = (bloom_new size hs2).k := hlen
  have hm : (bloom_new size hs1).m = (bloom_new size hs2).m := rfl
  have hh : ∀ n s, n < (bloom_new size hs1).k →
      (bloom_new size hs1).hash n s = (bloom_new size hs2).hash n s :=
    fun n s hn => hfun n s hn
  have ha : (adds.foldl bloom_add (bloom_new size hs1)).a
      = (adds.foldl bloom_add (bloom_new size hs2)).a :=
    foldl_bloom_add_congr_a adds _ _ hk hm hh rfl
  refine ⟨ha, ?_⟩
  intro s
  apply bloom_check_congr
  · rw [foldl_bloom_add_k, foldl_bloom_add_k, hk]
  · intro n hn
    have hn1 : n < (bloom_new size hs1).k := by
      rw [foldl_bloom_add_k] at hn
      exact hn
    have hidx : bloomBitIndex (adds.foldl bloom_add (bloom_new size hs1)) s n
        = bloomBitIndex (adds.foldl bloom_add (bloom_new size hs2)) s n := by
      unfold bloomBitIndex
      rw [foldl_bloom_add_hash, foldl_bloom_add_hash, foldl_bloom_add_m,
        foldl_bloom_add_m, hh n s hn1]
      rfl
    rw [ha, hidx]

/-- Witness for C7 at concrete construction parameters and add sequence. -/
theorem claim_C7_witness :
    (([fun _ => 0] : List hashfp_t).length = ([fun _ => 0] : List hashfp_t).length) ∧
    (∀ n s, n < ([fun _ => 0] : List hashfp_t).length →
      ([fun _ => 0] : List hashfp_t).getD n (fun _ => 0) s
        = ([fun _ => 0] : List hashfp_t).getD n (fun _ => 0) s) ∧
    ((["a"].foldl bloom_add (bloom_new 8 ([fun _ => 0] : List hashfp_t))).a
        = (["a"].foldl bloom_add (bloom_new 8 ([fun _ => 0] : List hashfp_t))).a ∧
      (∀ s, bloom_check (["a"].foldl bloom_add (bloom_new 8 ([fun _ => 0] : List hashfp_t))) s
        = bloom_check (["a"].foldl bloom_add (bloom_new 8 ([fun _ => 0] : List hashfp_t))) s)) :=
  ⟨rfl, fun n s hn => rfl,
    claim_C7_determinism 8 [fun _ => 0] [fun _ => 0] ["a"] rfl (fun n s hn => rfl)⟩

/-! ### Claim C8 -/

/-- C8: Forced-collision scenario.  For a filter with `m = 8` and `k = 1` whose
single hash function returns the same value for the distinct keys `"a"` and
`"b"`, after `bloom_add(filter, "a")` the call `bloom_check(filter, "b")`
returns true. -/
theorem claim_C8_collision (h : hashfp_t) (hcol : h "a" = h "b") :
    bloom_check (bloom_add (bloom_new 8 [h]) "a") "b" = true := by
  apply (bloom_check_eq_true_iff _ _).mpr
  intro n hn
  have hn0 : n = 0 := by
    have hk : (bloom_add (bloom_new 8 [h]) "a").k = 1 := rfl
    rw [hk] at hn
    omega
  subst hn0
  have hidx : bloomBitIndex (bloom_add (bloom_new 8 [h]) "a") "b" 0
      = bloomBitIndex (bloom_new 8 [h]) "a" 0 := by
    show (h "b" % UINT_MAX_SUCC) % 8 = (h "a" % UINT_MAX_SUCC) % 8
    rw [hcol]
  rw [hidx]
  exact bloom_add_sets (bloom_new 8 [h]) "a" (show 0 < 1 from Nat.one_pos)

/-- Witness for C8 with a concrete constant hash function. -/
theorem claim_C8_witness :
    ((fun _ => 5 : hashfp_t) "a" = (fun _ => 5 : hashfp_t) "b") ∧
    bloom_check (bloom_add (bloom_new 8 [fun _ => 5]) "a") "b" = true :=
  ⟨rfl, claim_C8_collision (fun _ => 5) rfl⟩

/-! ### Claim C9 -/

/-- C9: Implicit `k = 0` edge case.  `bloom_new` accepts an empty hash-function
list (the spec's `k ≥ 1` requirement is not enforced), and on the resulting
filter `bloom_check` returns true for every key even though nothing has been
added and every bit of the array is clear: the "all k bits set" loop condition
is vacuous. -/
theorem claim_C9_zero_hashes (size : Nat) (s : String) :
    (∀ j, GETBIT (bloom_new size []).a j = 0) ∧
    bloom_check (bloom_new size []) s = true := by
  constructor
  · intro j
    show GETBIT (fun _ => 0) j = 0
    unfold GETBIT
    exact Nat.zero_and _
  · rfl

/-! ### Claim C10 -/

/-- C10: Hash truncation.  Both `bloom_add` and `bloom_check` reduce each hash
value modulo `2 ^ 32` (the `(unsigned int)` cast) before reducing modulo `m`;
the shared index expression `bloomBitIndex` is exactly that, every computed
index is strictly below `2 ^ 32`, and for `m > 2 ^ 32` a bit at an index
`j ≥ 2 ^ 32` is never set by `bloom_add`, while `bloom_check`'s answer is
unchanged by arbitrary modification of such bits. -/
theorem claim_C10_truncation (b : bloom_t) (s : String) (j : Nat) (a2 : Nat → Nat)
    (hm : UINT_MAX_SUCC < b.m) (hj : UINT_MAX_SUCC ≤ j)
    (ha2 : ∀ i, i < UINT_MAX_SUCC → GETBIT a2 i = GETBIT b.a i) :
    (∀ n, bloomBitIndex b s n = (b.hash n s % UINT_MAX_SUCC) % b.m ∧
      bloomBitIndex b s n < UINT_MAX_SUCC) ∧
    GETBIT (bloom_add b s).a j = GETBIT b.a j ∧
    bloom_check { b with a := a2 } s = bloom_check b s := by
  have hU : 0 < UINT_MAX_SUCC := by decide
  have hlt : ∀ n, bloomBitIndex b s n < UINT_MAX_SUCC := by
    intro n
    unfold bloomBitIndex
    rcases Nat.eq_zero_or_pos b.m with h0 | h0
    · rw [h0, Nat.mod_zero]
      exact Nat.mod_lt _ hU
    · exact Nat.lt_of_le_of_lt (Nat.mod_le _ _) (Nat.mod_lt _ hU)
  refine ⟨fun n => ⟨rfl, hlt n⟩, ?_, ?_⟩
  · apply bloom_add_frame_a
    intro n hn
    exact Nat.ne_of_lt (Nat.lt_of_lt_of_le (hlt n) hj)
  · apply bloom_check_congr
    · rfl
    · intro n hn
      show GETBIT a2 (bloomBitIndex b s n) = 0 ↔ GETBIT b.a (bloomBitIndex b s n) = 0
      rw [ha2 _ (hlt n)]

/-- Witness for C10 at a concrete filter with `m = 2 ^ 32 + 8`. -/
theorem claim_C10_witness :
    (UINT_MAX_SUCC < wFilterBig.m ∧ UINT_MAX_SUCC ≤ 2 ^ 32 ∧
      (∀ i, i < UINT_MAX_SUCC → GETBIT wFilterBig.a i = GETBIT wFilterBig.a i)) ∧
    ((∀ n, bloomBitIndex wFilterBig "a" n
        = (wFilterBig.hash n "a" % UINT_MAX_SUCC) % wFilterBig.m ∧
      bloomBitIndex wFilterBig "a" n < UINT_MAX_SUCC) ∧
    GETBIT (bloom_add wFilterBig "a").a (2 ^ 32) = GETBIT wFilterBig.a (2 ^ 32) ∧
    bloom_check { wFilterBig with a := wFilterBig.a } "a" = bloom_check wFilterBig "a") :=
  ⟨⟨by decide, by decide, fun i _ => rfl⟩,
    claim_C10_truncation wFilterBig "a" (2 ^ 32) wFilterBig.a (by decide) (by decide)
      (fun i _ => rfl)⟩
